import Mathlib

/-
Verification of the bit-packed Game of Life engine (`src/engines/ultimate.rs`)
against its reference scalar engine (`src/engines/naive.rs`) and grid model
(`src/grid/standard.rs`, `src/grid/mod.rs`).

Machine integers (`u64`) are modelled as `Nat` with explicit `% 2 ^ 64`
where Rust's wrapping shifts matter; `usize` values are modelled as `Nat`.
SIMD vectors (`Simd<u64, N>`) are modelled as `List Nat` of length `N`;
every `std::simd` operation used by the source acts lanewise, and is
rendered lanewise here.  Fallible `Vec` indexing is modelled by the
`Option`-valued accessors (`get?`, `set?`, and the `none` branch of
`parStepOnce`); total `getD _ 0` access is used on the hot path, whose
in-bounds behaviour the claims address separately.
-/

set_option maxHeartbeats 1000000
set_option maxRecDepth 10000

namespace GameOfLife

/-- `div_ceil` from ultimate.rs: ceiling division `(x + y - 1) / y`. -/
def div_ceil (x y : Nat) : Nat := (x + y - 1) / y

/-! ## The scalar reference side: `StandardGrid` and `NaiveEngine` -/

/-- `StandardGrid` from grid/standard.rs: one `bool` per cell, row-major. -/
structure StandardGrid where
  width : Nat
  height : Nat
  cells : List Bool
deriving DecidableEq, Repr

/-- `StandardGrid::new`: all cells dead. -/
def StandardGrid.new (width height : Nat) : StandardGrid :=
  { width := width, height := height, cells := List.replicate (width * height) false }

/-- `StandardGrid::get_cell` (`cells[row * width + col]`).  The source asserts
`row < height && col < width`; every use modelled here is in bounds, so the
out-of-bounds branch (`getD` default) is never exercised. -/
def StandardGrid.get_cell (g : StandardGrid) (row col : Nat) : Bool :=
  g.cells.getD (row * g.width + col) false

/-- `Grid::count_neighbors` from grid/mod.rs: iterate `dr, dc ∈ {-1,0,1}`,
skip `(0,0)`, count in-bounds live neighbours (bounds checked on `isize`). -/
def count_neighbors (g : StandardGrid) (row col : Nat) : Nat :=
  ([-1, 0, 1] : List Int).foldl (fun count dr =>
    ([-1, 0, 1] : List Int).foldl (fun c2 dc =>
      if dr = 0 ∧ dc = 0 then c2
      else
        let r : Int := (row : Int) + dr
        let c : Int := (col : Int) + dc
        if 0 ≤ r ∧ r < (g.height : Int) ∧ 0 ≤ c ∧ c < (g.width : Int) ∧
            g.get_cell r.toNat c.toNat = true then c2 + 1 else c2) count) 0

/-- `Grid::count_live_cells` from grid/mod.rs. -/
def StandardGrid.count_live_cells (g : StandardGrid) : Nat :=
  (List.range g.height).foldl (fun count row =>
    (List.range g.width).foldl (fun c2 col =>
      if g.get_cell row col then c2 + 1 else c2) count) 0

/-- `NaiveEngine` from naive.rs: a current and a shadow `StandardGrid`. -/
structure NaiveEngine where
  grid : StandardGrid
  next_grid : StandardGrid
deriving DecidableEq, Repr

/-- `NaiveEngine::from_grid`: copy the source grid cell by cell (row-major). -/
def NaiveEngine.from_grid (g : StandardGrid) : NaiveEngine :=
  { grid := { width := g.width, height := g.height,
              cells := (List.range (g.height * g.width)).map
                (fun idx => g.get_cell (idx / g.width) (idx % g.width)) },
    next_grid := StandardGrid.new g.width g.height }

/-- `NaiveEngine::update_safe`: map Conway's rule over every cell of the
current grid (`idx / width`, `idx % width` as in the source), write the
results into the shadow grid, then swap the two grids. -/
def NaiveEngine.update_safe (e : NaiveEngine) : NaiveEngine :=
  let width := e.grid.width
  let height := e.grid.height
  let new_cells : List Bool := (List.range (height * width)).map (fun idx =>
    let row := idx / width
    let col := idx % width
    let neighbors := count_neighbors e.grid row col
    let current_cell := e.grid.get_cell row col
    match current_cell, neighbors with
    | true, 2 => true
    | true, 3 => true
    | false, 3 => true
    | _, _ => false)
  { grid := { width := width, height := height, cells := new_cells },
    next_grid := e.grid }

/-- `NaiveEngine::step` (`GameOfLifeEngine` impl) calls `update_safe`. -/
def NaiveEngine.step (e : NaiveEngine) : NaiveEngine := e.update_safe

/-- `NaiveEngine::get_cell`. -/
def NaiveEngine.get_cell (e : NaiveEngine) (row col : Nat) : Bool :=
  e.grid.get_cell row col

/-- `NaiveEngine::count_live_cells`. -/
def NaiveEngine.count_live_cells (e : NaiveEngine) : Nat :=
  e.grid.count_live_cells

/-! ## The bit-packed side: `UltimateEngine<N>` -/

/-- `UltimateEngine<const N: usize>` from ultimate.rs.  The const generic
lane count `N` is stored as the field `lanes`; the optional rayon thread
pool is not part of the state (the parallel stepping path is modelled by
`parStepOnce`, parametrised by the pool's thread count). -/
structure UltimateEngine where
  lanes : Nat
  field : List Nat
  new_field : List Nat
  height : Nat
  columns : Nat
  actual_width : Nat
  actual_height : Nat
  boundary_masks : List Nat
  boundary_x_start : Nat
deriving DecidableEq, Repr

/-- `UltimateEngine::new`.  The mask vector starts as `vec![!0u64; columns]`
and is then overwritten for every column at or past the logical width,
rendered here as one `map` over the column indices.  `!0u64 << s` is
`(2 ^ 64 - 1) <<< s % 2 ^ 64`. -/
def UltimateEngine.new (N width height : Nat) : UltimateEngine :=
  let columns := div_ceil (div_ceil width 64) N * N + 2
  let padded_height := height + 2
  let boundary_x_start := div_ceil width 64
  let boundary_masks := (List.range columns).map (fun col =>
    let global_x := if col = 0 then 0 else (col - 1) * 64
    if width ≤ global_x then 0
    else if width < global_x + 64 then
      let bits_to_keep := width - global_x
      ((2 ^ 64 - 1) <<< (64 - bits_to_keep)) % 2 ^ 64
    else 2 ^ 64 - 1)
  { lanes := N,
    field := List.replicate (columns * padded_height) 0,
    new_field := List.replicate (columns * padded_height) 0,
    height := padded_height,
    columns := columns,
    actual_width := width,
    actual_height := height,
    boundary_masks := boundary_masks,
    boundary_x_start := boundary_x_start }

/-- `UltimateEngine::set` (total rendering; the in-bounds index is within
`field` for well-formed engines, which claim theorems establish). -/
def UltimateEngine.set (e : UltimateEngine) (x y : Nat) : UltimateEngine :=
  if e.actual_width ≤ x ∨ e.actual_height ≤ y then e
  else
    let column := x / 64 + 1
    let bit := 2 ^ 63 >>> (x % 64)
    let idx := (y + 1) * e.columns + column
    { e with field := e.field.set idx (e.field.getD idx 0 ||| bit) }

/-- `UltimateEngine::get` (total rendering). -/
def UltimateEngine.get (e : UltimateEngine) (x y : Nat) : Bool :=
  if e.actual_width ≤ x ∨ e.actual_height ≤ y then false
  else
    let column := x / 64 + 1
    let bit := 2 ^ 63 >>> (x % 64)
    decide (e.field.getD ((y + 1) * e.columns + column) 0 &&& bit ≠ 0)

/-- `UltimateEngine::set` with the `Vec` index fault made explicit:
`none` exactly when the Rust indexing `self.field[idx]` would be out of
bounds and hence fault. -/
def UltimateEngine.setChecked (e : UltimateEngine) (x y : Nat) : Option UltimateEngine :=
  if e.actual_width ≤ x ∨ e.actual_height ≤ y then some e
  else
    let column := x / 64 + 1
    let bit := 2 ^ 63 >>> (x % 64)
    let idx := (y + 1) * e.columns + column
    match e.field[idx]? with
    | some w => some { e with field := e.field.set idx (w ||| bit) }
    | none => none

/-- `UltimateEngine::get` with the `Vec` index fault made explicit. -/
def UltimateEngine.getChecked (e : UltimateEngine) (x y : Nat) : Option Bool :=
  if e.actual_width ≤ x ∨ e.actual_height ≤ y then some false
  else
    let column := x / 64 + 1
    let bit := 2 ^ 63 >>> (x % 64)
    (e.field[(y + 1) * e.columns + column]?).map (fun w => decide (w &&& bit ≠ 0))

/-- `UltimateEngine::count_live_cells` (the `x`/`y` loop of the inherent
method; the trait method iterates the same cells). -/
def UltimateEngine.count_live_cells (e : UltimateEngine) : Nat :=
  (List.range e.actual_height).foldl (fun count y =>
    (List.range e.actual_width).foldl (fun c2 x =>
      if e.get x y then c2 + 1 else c2) count) 0

/-- `UltimateEngine::get_cell (row, col)` = `get (col, row)`. -/
def UltimateEngine.get_cell (e : UltimateEngine) (row col : Nat) : Bool :=
  e.get col row

/-- `UltimateEngine::set_grid`: zero both fields, then set every live cell
of the source grid (clamped to the engine's bounds). -/
def UltimateEngine.set_grid (e : UltimateEngine) (g : StandardGrid) : UltimateEngine :=
  let e0 := { e with field := List.replicate e.field.length 0,
                     new_field := List.replicate e.new_field.length 0 }
  (List.range (min g.height e.actual_height)).foldl (fun acc row =>
    (List.range (min g.width e.actual_width)).foldl (fun acc2 col =>
      if g.get_cell row col then acc2.set col row else acc2) acc) e0

/-- `shl` from ultimate.rs, rendered lanewise: lane `i` of
`(v >> splat 63).rotate_elements_left::<1>() & mask` is
`(v[(i+1) % N] >>> 63) &&& mask[i]` with `mask[i] = 1` except
`mask[N-1] = 0`, and `v << splat 1` wraps each lane at 64 bits. -/
def shl (v : List Nat) : List Nat :=
  let n := v.length
  (List.range n).map (fun i =>
    let m := if i = n - 1 then 0 else 1
    ((v.getD i 0 <<< 1) % 2 ^ 64) ||| ((v.getD ((i + 1) % n) 0 >>> 63) &&& m))

/-- `shr` from ultimate.rs, rendered lanewise: lane `i` of
`(v << splat 63).rotate_elements_right::<1>() & mask` is
`((v[(i+n-1) % n] <<< 63) % 2 ^ 64) &&& mask[i]` with `mask[i] = 2 ^ 63`
except `mask[0] = 0`. -/
def shr (v : List Nat) : List Nat :=
  let n := v.length
  (List.range n).map (fun i =>
    let m := if i = 0 then 0 else 2 ^ 63
    (v.getD i 0 >>> 1) ||| (((v.getD ((i + n - 1) % n) 0 <<< 63) % 2 ^ 64) &&& m))

/-- One 64-bit lane of `UltimateEngine::sub_step` (all the SIMD operations
it uses act lanewise).  `!c0` on `u64` is `(2 ^ 64 - 1) ^^^ c0`. -/
def sub_stepWord (center n0 n1 n2 n3 n4 n5 n6 n7 : Nat) : Nat :=
  let ta0 := n0 ^^^ n1
  let a8 := ta0 ^^^ n2
  let b0 := (n0 &&& n1) ||| (ta0 &&& n2)
  let ta3 := n3 ^^^ n4
  let a9 := ta3 ^^^ n5
  let b1 := (n3 &&& n4) ||| (ta3 &&& n5)
  let aa := n6 ^^^ n7
  let b2 := n6 &&& n7
  let ta8 := a8 ^^^ a9
  let ab := ta8 ^^^ aa
  let b3 := (a8 &&& a9) ||| (ta8 &&& aa)
  let tb0 := b0 ^^^ b1
  let b4 := tb0 ^^^ b2
  let c0 := (b0 &&& b1) ||| (tb0 &&& b2)
  ((center ||| ab) &&& (b3 ^^^ b4)) &&& ((2 ^ 64 - 1) ^^^ c0)

/-- The single-bit shadow of `sub_stepWord`: the same adder network on one
bit position, with `Bool` in place of each 64-bit plane. -/
def sub_stepBit (center n0 n1 n2 n3 n4 n5 n6 n7 : Bool) : Bool :=
  let ta0 := Bool.xor n0 n1
  let a8 := Bool.xor ta0 n2
  let b0 := (n0 && n1) || (ta0 && n2)
  let ta3 := Bool.xor n3 n4
  let a9 := Bool.xor ta3 n5
  let b1 := (n3 && n4) || (ta3 && n5)
  let aa := Bool.xor n6 n7
  let b2 := n6 && n7
  let ta8 := Bool.xor a8 a9
  let ab := Bool.xor ta8 aa
  let b3 := (a8 && a9) || (ta8 && aa)
  let tb0 := Bool.xor b0 b1
  let b4 := Bool.xor tb0 b2
  let c0 := (b0 && b1) || (tb0 && b2)
  ((center || ab) && Bool.xor b3 b4) && !c0

/-- `UltimateEngine::get_simd`: `Simd::from_slice(&field[i..i + N])`. -/
def get_simd (field : List Nat) (i N : Nat) : List Nat :=
  (List.range N).map (fun l => field.getD (i + l) 0)

/-- The splice `nbs[k][0] |= (field[j] & 1) << 63` applied to a vector. -/
def spliceLow (v : List Nat) (w : Nat) : List Nat :=
  v.set 0 (v.getD 0 0 ||| ((w &&& 1) <<< 63))

/-- The splice `nbs[k][N-1] |= (field[j] & (1 << 63)) >> 63`. -/
def spliceHigh (v : List Nat) (w : Nat) : List Nat :=
  v.set (v.length - 1) (v.getD (v.length - 1) 0 ||| ((w &&& 2 ^ 63) >>> 63))

/-- The per-chunk body of `step_batch` at row `y` and chunk start `x`
(identical in the thread-pool and the sequential path of the source):
load the centre vector and the eight shifted neighbour vectors, splice the
cross-chunk bits, apply `sub_step`, and apply the boundary masks when the
chunk start `x` is at or past `boundary_x_start`. -/
def chunkResult (field : List Nat) (columns N bxs : Nat) (masks : List Nat)
    (y x : Nat) : List Nat :=
  let i := y * columns + x
  let center := get_simd field i N
  let nbs0 := spliceLow (shr (get_simd field (i - columns) N)) (field.getD (i - columns - 1) 0)
  let nbs1 := get_simd field (i - columns) N
  let nbs2 := spliceHigh (shl (get_simd field (i - columns) N)) (field.getD (i - columns + N) 0)
  let nbs3 := spliceLow (shr (get_simd field i N)) (field.getD (i - 1) 0)
  let nbs4 := spliceHigh (shl (get_simd field i N)) (field.getD (i + N) 0)
  let nbs5 := spliceLow (shr (get_simd field (i + columns) N)) (field.getD (i + columns - 1) 0)
  let nbs6 := get_simd field (i + columns) N
  let nbs7 := spliceHigh (shl (get_simd field (i + columns) N)) (field.getD (i + columns + N) 0)
  let result := (List.range N).map (fun lane =>
    sub_stepWord (center.getD lane 0) (nbs0.getD lane 0) (nbs1.getD lane 0)
      (nbs2.getD lane 0) (nbs3.getD lane 0) (nbs4.getD lane 0) (nbs5.getD lane 0)
      (nbs6.getD lane 0) (nbs7.getD lane 0))
  if bxs ≤ x then
    (List.range N).map (fun lane =>
      if x + lane < masks.length then result.getD lane 0 &&& masks.getD (x + lane) 0
      else result.getD lane 0)
  else result

/-- Overwrite `n` words of `nf` starting at `pos` with the words of `ws`
(the effect of `copy_from_slice` into the row slice). -/
def writeWords (nf : List Nat) (pos : Nat) (ws : List Nat) (n : Nat) : List Nat :=
  (List.range n).foldl (fun acc l => acc.set (pos + l) (ws.getD l 0)) nf

/-- The chunk starts of `for x in (1..columns - 1).step_by(N)`:
`1, 1 + N, …`, one per `N`-wide chunk of the interior columns. -/
def chunkStarts (columns N : Nat) : List Nat :=
  (List.range (div_ceil (columns - 2) N)).map (fun j => 1 + j * N)

/-- One interior row of a step: write every chunk's result into the shadow
field at its absolute position `y * columns + x`. -/
def stepRowChunks (field : List Nat) (columns N bxs : Nat) (masks : List Nat)
    (y : Nat) (nf : List Nat) : List Nat :=
  (chunkStarts columns N).foldl (fun acc x =>
    writeWords acc (y * columns + x) (chunkResult field columns N bxs masks y x) N) nf

/-- The sequential (`pool = None`) path of one `step_batch` iteration:
`new_field[columns .. columns*height - columns].chunks_mut(columns)`
yields one chunk per interior row `y = i + 1`. -/
def stepInterior (field nf : List Nat) (height columns N bxs : Nat)
    (masks : List Nat) : List Nat :=
  (List.range (height - 2)).foldl (fun acc yl =>
    stepRowChunks field columns N bxs masks (yl + 1) acc) nf

/-- One sequential-path `step_batch` iteration: compute the shadow field
and swap the buffers. -/
def seqStepOnce (e : UltimateEngine) : UltimateEngine :=
  { e with
    field := stepInterior e.field e.new_field e.height e.columns e.lanes
      e.boundary_x_start e.boundary_masks,
    new_field := e.field }

/-- `UltimateEngine::step_batch` on the sequential path: the `for _ in
0..steps` loop. -/
def UltimateEngine.step_batch (e : UltimateEngine) (steps : Nat) : UltimateEngine :=
  seqStepOnce^[steps] e

/-- `UltimateEngine::step` (`GameOfLifeEngine` impl): `step_batch(1)`. -/
def UltimateEngine.step (e : UltimateEngine) : UltimateEngine :=
  e.step_batch 1

/-- `UltimateEngine::run_steps(steps: usize)` calls
`step_batch(steps as u32)`: on a 64-bit target the cast truncates the step
count modulo `2 ^ 32`. -/
def UltimateEngine.run_steps (e : UltimateEngine) (steps : Nat) : UltimateEngine :=
  e.step_batch (steps % 2 ^ 32)

/-- The thread-pool path of one `step_batch` iteration: the interior slice
`new_field[columns .. columns*height - columns]` is split by
`chunks_mut(chunk_size * columns)` into row blocks, and block `i` processes
its rows with `y = yl + i * chunk_size + 1` — the same per-row body as the
sequential path.  `chunks_mut` faults when its argument is zero, which is
the `none` branch. -/
def parInterior (field nf : List Nat) (height columns N bxs : Nat)
    (masks : List Nat) (chunk_size : Nat) : List Nat :=
  (List.range (div_ceil (columns * height - columns - columns) (chunk_size * columns))).foldl
    (fun acc i =>
      (List.range (min (chunk_size * columns)
          (columns * height - columns - columns - i * (chunk_size * columns)) / columns)).foldl
        (fun acc2 yl =>
          stepRowChunks field columns N bxs masks (yl + i * chunk_size + 1) acc2) acc) nf

/-- One thread-pool-path `step_batch` iteration with `threads` workers:
`chunk_size = ceil((height - 2) / threads)`; `none` models the
`chunks_mut(chunk_size * columns)` fault when that product is zero. -/
def parStepOnce (threads : Nat) (e : UltimateEngine) : Option UltimateEngine :=
  if (e.height - 2 + threads - 1) / threads * e.columns = 0 then none
  else some { e with
    field := parInterior e.field e.new_field e.height e.columns e.lanes
      e.boundary_x_start e.boundary_masks ((e.height - 2 + threads - 1) / threads),
    new_field := e.field }

/-- `step_batch(steps)` on the thread-pool path. -/
def parStepBatch (threads : Nat) : Nat → UltimateEngine → Option UltimateEngine
  | 0, e => some e
  | n + 1, e => (parStepOnce threads e).bind (parStepBatch threads n)

/-- Structural well-formedness of an engine state: exactly the shape
produced by `UltimateEngine::new` (and preserved by every operation). -/
def WF (e : UltimateEngine) : Prop :=
  1 ≤ e.lanes ∧
  e.height = e.actual_height + 2 ∧
  e.columns = div_ceil (div_ceil e.actual_width 64) e.lanes * e.lanes + 2 ∧
  e.boundary_x_start = div_ceil e.actual_width 64 ∧
  e.field.length = e.columns * e.height ∧
  e.new_field.length = e.columns * e.height ∧
  e.boundary_masks.length = e.columns

instance (e : UltimateEngine) : Decidable (WF e) := by
  unfold WF; infer_instance

/-- The padding border of a packed buffer is all zero: first and last row,
first and last word-column. -/
def borderZero (f : List Nat) (height columns : Nat) : Prop :=
  ∀ y c, y < height → c < columns →
    (y = 0 ∨ y = height - 1 ∨ c = 0 ∨ c = columns - 1) →
    f.getD (y * columns + c) 0 = 0

/-! ## Concrete states used by counterexamples and witnesses -/

/-- A 65 × 3 grid with the column `x = 64` fully alive: the straddling
word-column of a width-65 engine (lane count 4) is not masked, because the
single chunk starts at column 1 while `boundary_x_start = 2`. -/
def gridW65 : StandardGrid :=
  { width := 65, height := 3, cells := (List.range (3 * 65)).map (fun i => i % 65 == 64) }

/-- The width-65 packed engine loaded from `gridW65`. -/
def ultW65 : UltimateEngine := (UltimateEngine.new 4 65 3).set_grid gridW65

/-- The scalar reference engine loaded from `gridW65`. -/
def naiW65 : NaiveEngine := NaiveEngine.from_grid gridW65

/-- A 1 × 1 grid whose only cell is alive. -/
def grid1 : StandardGrid := { width := 1, height := 1, cells := [true] }

/-- The 1 × 1 packed engine with its only cell alive. -/
def ult1 : UltimateEngine := (UltimateEngine.new 4 1 1).set_grid grid1

/-- A 5 × 5 grid holding a horizontal blinker in its middle row. -/
def gridB5 : StandardGrid :=
  { width := 5, height := 5,
    cells := (List.range 25).map (fun i => i == 11 || i == 12 || i == 13) }

/-- The 5 × 5 packed engine loaded from `gridB5`. -/
def ultB5 : UltimateEngine := (UltimateEngine.new 4 5 5).set_grid gridB5

/-! ## General helper lemmas -/

theorem getD_map_range (f : Nat → Nat) (n i : Nat) :
    ((List.range n).map f).getD i 0 = if i < n then f i else 0 := by
  rcases Nat.lt_or_ge i n with h | h
  · rw [List.getD_eq_getElem _ _ (by simpa using h)]
    simp [h]
  · rw [if_neg (by omega)]
    have hlen : ((List.range n).map f).length ≤ i := by simpa using h
    simp [List.getD_eq_getElem?_getD, List.getElem?_eq_none hlen]

theorem getD_oob {l : List Nat} {i : Nat} (h : l.length ≤ i) : l.getD i 0 = 0 := by
  simp [List.getD_eq_getElem?_getD, List.getElem?_eq_none h]

theorem getD_lt_two_pow {v : List Nat} (hv : ∀ w ∈ v, w < 2 ^ 64) (i : Nat) :
    v.getD i 0 < 2 ^ 64 := by
  rcases Nat.lt_or_ge i v.length with h | h
  · rw [List.getD_eq_getElem _ _ h]
    exact hv _ (List.getElem_mem h)
  · rw [getD_oob h]
    positivity

theorem getD_set_self (l : List Nat) (i v : Nat) (h : i < l.length) :
    (l.set i v).getD i 0 = v := by
  rw [List.getD_eq_getElem _ _ (by simpa using h)]
  simp [List.getElem_set_self]

theorem getD_set_ne (l : List Nat) (i j v : Nat) (h : i ≠ j) :
    (l.set i v).getD j 0 = l.getD j 0 := by
  simp [List.getD_eq_getElem?_getD, List.getElem?_set_ne h]

theorem le_div_ceil_mul (a b : Nat) (hb : 0 < b) : a ≤ div_ceil a b * b := by
  unfold div_ceil
  rcases Nat.eq_zero_or_pos a with rfl | ha
  · simp
  have h1 : (a + b - 1) / b = (a - 1) / b + 1 := by
    rw [show a + b - 1 = (a - 1) + b by omega, Nat.add_div_right _ hb]
  have h2 := Nat.div_add_mod (a - 1) b
  have h3 : (a - 1) % b < b := Nat.mod_lt _ hb
  have h4 : a = b * ((a - 1) / b) + ((a - 1) % b) + 1 := by rw [h2]; omega
  rw [h1, Nat.add_mul, Nat.one_mul, Nat.mul_comm ((a - 1) / b) b]
  have h5 : b * ((a - 1) / b) + ((a - 1) % b) + 1 ≤ b * ((a - 1) / b) + b := by
    rw [Nat.add_assoc]
    exact Nat.add_le_add_left h3 _
  exact le_trans (le_of_eq h4) h5

theorem rowcol_inj {y1 y2 b1 b2 c : Nat} (h1 : b1 < c) (h2 : b2 < c)
    (he : y1 * c + b1 = y2 * c + b2) : y1 = y2 ∧ b1 = b2 := by
  have hc : 0 < c := Nat.pos_of_ne_zero (by omega)
  have hm1 : (y1 * c + b1) % c = b1 := by
    rw [Nat.add_comm, Nat.add_mul_mod_self_right, Nat.mod_eq_of_lt h1]
  have hm2 : (y2 * c + b2) % c = b2 := by
    rw [Nat.add_comm, Nat.add_mul_mod_self_right, Nat.mod_eq_of_lt h2]
  have hd1 : (y1 * c + b1) / c = y1 := by
    rw [Nat.add_comm, Nat.add_mul_div_right _ _ hc, Nat.div_eq_of_lt h1, Nat.zero_add]
  have hd2 : (y2 * c + b2) / c = y2 := by
    rw [Nat.add_comm, Nat.add_mul_div_right _ _ hc, Nat.div_eq_of_lt h2, Nat.zero_add]
  rw [he] at hm1 hd1
  exact ⟨hd1.symm.trans hd2, hm1.symm.trans hm2⟩

/-! ## The carry-save adder network (C1) -/

theorem testBit_sub_stepWord (c n0 n1 n2 n3 n4 n5 n6 n7 i : Nat) (hi : i < 64) :
    (sub_stepWord c n0 n1 n2 n3 n4 n5 n6 n7).testBit i =
      sub_stepBit (c.testBit i) (n0.testBit i) (n1.testBit i) (n2.testBit i)
        (n3.testBit i) (n4.testBit i) (n5.testBit i) (n6.testBit i) (n7.testBit i) := by
  have hd : (decide (i < 64)) = true := by simp [hi]
  simp only [sub_stepWord, sub_stepBit, Nat.testBit_or, Nat.testBit_and, Nat.testBit_xor,
    Nat.testBit_two_pow_sub_one, hd, Bool.true_xor]

theorem sub_stepBit_conway (b b0 b1 b2 b3 b4 b5 b6 b7 : Bool) :
    (sub_stepBit b b0 b1 b2 b3 b4 b5 b6 b7 = true) ↔
      ((b0.toNat + b1.toNat + b2.toNat + b3.toNat + b4.toNat + b5.toNat +
          b6.toNat + b7.toNat = 3) ∨
        (b = true ∧ b0.toNat + b1.toNat + b2.toNat + b3.toNat + b4.toNat +
          b5.toNat + b6.toNat + b7.toNat = 2)) := by
  revert b b0 b1 b2 b3 b4 b5 b6 b7
  decide

/-- Claim C1: at every bit position `i` of the 64-bit word planes, the
carry-save adder network of `sub_step` outputs a live bit exactly when the
direct Conway definition does — the neighbour count is exactly 3, or the
centre is alive and the neighbour count is exactly 2.  Quantifying over
arbitrary word planes covers all 512 combinations of a centre bit and 8
neighbour bits, applied uniformly at every bit position. -/
theorem c1_sub_step_matches_conway_rule (c n0 n1 n2 n3 n4 n5 n6 n7 i : Nat)
    (hi : i < 64) :
    ((sub_stepWord c n0 n1 n2 n3 n4 n5 n6 n7).testBit i = true) ↔
      (((n0.testBit i).toNat + (n1.testBit i).toNat + (n2.testBit i).toNat +
          (n3.testBit i).toNat + (n4.testBit i).toNat + (n5.testBit i).toNat +
          (n6.testBit i).toNat + (n7.testBit i).toNat = 3) ∨
        (c.testBit i = true ∧
          (n0.testBit i).toNat + (n1.testBit i).toNat + (n2.testBit i).toNat +
          (n3.testBit i).toNat + (n4.testBit i).toNat + (n5.testBit i).toNat +
          (n6.testBit i).toNat + (n7.testBit i).toNat = 2)) := by
  rw [testBit_sub_stepWord c n0 n1 n2 n3 n4 n5 n6 n7 i hi]
  exact sub_stepBit_conway (c.testBit i) (n0.testBit i) (n1.testBit i) (n2.testBit i)
    (n3.testBit i) (n4.testBit i) (n5.testBit i) (n6.testBit i) (n7.testBit i)

/-- Witness for C1 at a concrete input: centre dead, exactly the first
three neighbour planes carrying bit 0 — a birth. -/
theorem c1_sub_step_matches_conway_rule_witness :
    (0 : Nat) < 64 ∧
      (((sub_stepWord 0 1 1 1 0 0 0 0 0).testBit 0 = true) ↔
        ((((1:Nat).testBit 0).toNat + ((1:Nat).testBit 0).toNat + ((1:Nat).testBit 0).toNat +
            ((0:Nat).testBit 0).toNat + ((0:Nat).testBit 0).toNat + ((0:Nat).testBit 0).toNat +
            ((0:Nat).testBit 0).toNat + ((0:Nat).testBit 0).toNat = 3) ∨
          ((0:Nat).testBit 0 = true ∧
            ((1:Nat).testBit 0).toNat + ((1:Nat).testBit 0).toNat + ((1:Nat).testBit 0).toNat +
            ((0:Nat).testBit 0).toNat + ((0:Nat).testBit 0).toNat + ((0:Nat).testBit 0).toNat +
            ((0:Nat).testBit 0).toNat + ((0:Nat).testBit 0).toNat = 2))) :=
  ⟨by decide, c1_sub_step_matches_conway_rule 0 1 1 1 0 0 0 0 0 0 (by decide)⟩

/-! ## The shift-with-carry primitives (C6) -/

theorem shl_lane (v : List Nat) (i : Nat) (hi : i < v.length) :
    (shl v).getD i 0 =
      ((v.getD i 0 <<< 1) % 2 ^ 64) |||
        ((v.getD ((i + 1) % v.length) 0 >>> 63) &&&
          (if i = v.length - 1 then 0 else 1)) := by
  rw [shl, getD_map_range, if_pos hi]

theorem shr_lane (v : List Nat) (i : Nat) (hi : i < v.length) :
    (shr v).getD i 0 =
      (v.getD i 0 >>> 1) |||
        (((v.getD ((i + v.length - 1) % v.length) 0 <<< 63) % 2 ^ 64) &&&
          (if i = 0 then 0 else 2 ^ 63)) := by
  rw [shr, getD_map_range, if_pos hi]

theorem shl_getD_testBit (v : List Nat) (i j : Nat) (hi : i < v.length) (hj : j < 64) :
    ((shl v).getD i 0).testBit j =
      (if j = 0 then decide (i + 1 < v.length) && (v.getD (i + 1) 0).testBit 63
       else (v.getD i 0).testBit (j - 1)) := by
  rw [shl_lane v i hi, Nat.testBit_or, Nat.testBit_mod_two_pow, Nat.testBit_and]
  have hdj : decide (j < 64) = true := by simp [hj]
  rw [hdj, Bool.true_and, Nat.testBit_shiftLeft, Nat.testBit_shiftRight]
  by_cases hj0 : j = 0
  · subst hj0
    have hge : decide ((0:Nat) ≥ 1) = false := by decide
    rw [hge, Bool.false_and, Bool.false_or, if_pos rfl]
    by_cases hlast : i = v.length - 1
    · have h1 : decide (i + 1 < v.length) = false := by simp; omega
      rw [if_pos hlast, h1, Bool.false_and]
      simp [Nat.zero_testBit]
    · have h1 : i + 1 < v.length := by omega
      have h2 : (i + 1) % v.length = i + 1 := Nat.mod_eq_of_lt h1
      have h3 : decide (i + 1 < v.length) = true := by simp [h1]
      rw [if_neg hlast, h2, h3, Bool.true_and]
      have h4 : ((1:Nat)).testBit 0 = true := by decide
      rw [show (63:Nat) + 0 = 63 by rfl, h4, Bool.and_true]
  · have hge : decide (j ≥ 1) = true := by simp; omega
    rw [hge, Bool.true_and, if_neg hj0]
    have hm : (if i = v.length - 1 then (0:Nat) else 1).testBit j = false := by
      by_cases hlast : i = v.length - 1
      · rw [if_pos hlast]; exact Nat.zero_testBit j
      · rw [if_neg hlast]
        exact Nat.testBit_lt_two_pow (by
          have : (1:Nat) < 2 ^ j := Nat.one_lt_two_pow_iff.mpr (by omega)
          exact this)
    rw [hm, Bool.and_false, Bool.or_false]

theorem shr_getD_testBit (v : List Nat) (hv : ∀ w ∈ v, w < 2 ^ 64) (i j : Nat)
    (hi : i < v.length) (hj : j < 64) :
    ((shr v).getD i 0).testBit j =
      (if j = 63 then decide (0 < i) && (v.getD (i - 1) 0).testBit 0
       else (v.getD i 0).testBit (j + 1)) := by
  rw [shr_lane v i hi, Nat.testBit_or, Nat.testBit_and, Nat.testBit_mod_two_pow,
    Nat.testBit_shiftRight, Nat.testBit_shiftLeft]
  have hdj : decide (j < 64) = true := by simp [hj]
  rw [hdj, Bool.true_and]
  by_cases hj63 : j = 63
  · subst hj63
    have hbig : (v.getD i 0).testBit (1 + 63) = false :=
      Nat.testBit_lt_two_pow (lt_of_lt_of_le (getD_lt_two_pow hv i) (by norm_num))
    rw [hbig, Bool.false_or, if_pos rfl]
    by_cases h0 : i = 0
    · rw [if_pos h0]
      have hz : ((0:Nat)).testBit 63 = false := Nat.zero_testBit 63
      rw [hz, Bool.and_false]
      have hp : decide (0 < i) = false := by simp [h0]
      rw [hp, Bool.false_and]
    · rw [if_neg h0]
      have h2 : (i + v.length - 1) % v.length = i - 1 := by
        rw [show i + v.length - 1 = (i - 1) + 1 * v.length by omega,
          Nat.add_mul_mod_self_right, Nat.mod_eq_of_lt (by omega)]
      have hge : decide ((63:Nat) ≥ 63) = true := by decide
      have h63 : ((2:Nat) ^ 63).testBit 63 = true := by decide
      rw [h2, hge, Bool.true_and, h63, Bool.and_true,
        show (63:Nat) - 63 = 0 by rfl]
      have hp : decide (0 < i) = true := by simp; omega
      rw [hp, Bool.true_and]
  · have hge : decide (j ≥ 63) = false := by simp; omega
    rw [if_neg hj63, show (1:Nat) + j = j + 1 by omega, hge, Bool.false_and,
      Bool.false_and, Bool.or_false]

/-- Claim C6: `shl` shifts every lane left by one bit, refilling each
lane's vacated low bit from the high bit of the next lane (0 for the last
lane); `shr` is the mirror image, refilling each vacated high bit from the
low bit of the previous lane (0 for the first lane).  Stated per output
bit: bit `j` of lane `i`. -/
theorem c6_shift_carries (v : List Nat) (hv : ∀ w ∈ v, w < 2 ^ 64) (i j : Nat)
    (hi : i < v.length) (hj : j < 64) :
    (shl v).length = v.length ∧ (shr v).length = v.length ∧
    ((shl v).getD i 0).testBit j =
      (if j = 0 then decide (i + 1 < v.length) && (v.getD (i + 1) 0).testBit 63
       else (v.getD i 0).testBit (j - 1)) ∧
    ((shr v).getD i 0).testBit j =
      (if j = 63 then decide (0 < i) && (v.getD (i - 1) 0).testBit 0
       else (v.getD i 0).testBit (j + 1)) :=
  ⟨by simp [shl], by simp [shr],
    shl_getD_testBit v i j hi hj, shr_getD_testBit v hv i j hi hj⟩

/-- Witness for C6 at a concrete vector: lanes `[2^63 + 1, 3]`, lane 0,
bit 0 (the cross-lane carry position for `shl`). -/
theorem c6_shift_carries_witness :
    (∀ w ∈ [2 ^ 63 + 1, 3], w < 2 ^ 64) ∧ (0 : Nat) < [2 ^ 63 + 1, 3].length ∧
      (0 : Nat) < 64 ∧
      ((shl [2 ^ 63 + 1, 3]).length = [2 ^ 63 + 1, 3].length ∧
        (shr [2 ^ 63 + 1, 3]).length = [2 ^ 63 + 1, 3].length ∧
        ((shl [2 ^ 63 + 1, 3]).getD 0 0).testBit 0 =
          (if (0:Nat) = 0 then
            decide (0 + 1 < [2 ^ 63 + 1, 3].length) && ([2 ^ 63 + 1, 3].getD (0 + 1) 0).testBit 63
           else ([2 ^ 63 + 1, 3].getD 0 0).testBit (0 - 1)) ∧
        ((shr [2 ^ 63 + 1, 3]).getD 0 0).testBit 0 =
          (if (0:Nat) = 63 then
            decide (0 < 0) && ([2 ^ 63 + 1, 3].getD (0 - 1) 0).testBit 0
           else ([2 ^ 63 + 1, 3].getD 0 0).testBit (0 + 1))) :=
  ⟨by decide, by decide, by decide,
    c6_shift_carries [2 ^ 63 + 1, 3] (by decide) 0 0 (by decide) (by decide)⟩

/-! ## Cell accessors (C7) -/

theorem set_index_lt {e : UltimateEngine} (hWF : WF e) {x y : Nat}
    (hx : x < e.actual_width) (hy : y < e.actual_height) :
    (y + 1) * e.columns + (x / 64 + 1) < e.field.length := by
  obtain ⟨hl, hh, hc, hb, hf, hnf, hm⟩ := hWF
  have h1 : x < div_ceil e.actual_width 64 * 64 :=
    lt_of_lt_of_le hx (le_div_ceil_mul _ _ (by norm_num))
  have h2 : x / 64 < div_ceil e.actual_width 64 := by
    rw [Nat.div_lt_iff_lt_mul (by norm_num : (0:Nat) < 64)]
    exact h1
  have h3 : div_ceil e.actual_width 64 ≤
      div_ceil (div_ceil e.actual_width 64) e.lanes * e.lanes :=
    le_div_ceil_mul _ _ hl
  have h4 : x / 64 + 1 < e.columns := by omega
  have h5 : (y + 1) * e.columns + (x / 64 + 1) < (y + 2) * e.columns := by
    have he : (y + 2) * e.columns = (y + 1) * e.columns + e.columns := by ring
    rw [he]
    exact Nat.add_lt_add_left h4 _
  have h6 : (y + 2) * e.columns ≤ e.height * e.columns :=
    Nat.mul_le_mul_right _ (by omega)
  rw [hf, Nat.mul_comm e.columns e.height]
  exact lt_of_lt_of_le h5 h6

/-- Claim C7: `get` returns `false` for any out-of-bounds coordinates and
`set` leaves the state unchanged there; and on a well-formed engine both
accessors return through the non-faulting branch for every argument,
in bounds or out (the checked variants, which make the `Vec` index fault
explicit, always return `some`). -/
theorem c7_accessors_never_fault (e : UltimateEngine) (hWF : WF e) (x y : Nat) :
    e.getChecked x y = some (e.get x y) ∧
    e.setChecked x y = some (e.set x y) ∧
    ((e.actual_width ≤ x ∨ e.actual_height ≤ y) →
      e.get x y = false ∧ e.set x y = e) := by
  by_cases hoob : e.actual_width ≤ x ∨ e.actual_height ≤ y
  · refine ⟨?_, ?_, fun _ => ⟨?_, ?_⟩⟩
    · rw [UltimateEngine.getChecked, UltimateEngine.get, if_pos hoob, if_pos hoob]
    · rw [UltimateEngine.setChecked, UltimateEngine.set, if_pos hoob, if_pos hoob]
    · rw [UltimateEngine.get, if_pos hoob]
    · rw [UltimateEngine.set, if_pos hoob]
  · push_neg at hoob
    obtain ⟨hx, hy⟩ := hoob
    have hidx := set_index_lt hWF hx hy
    refine ⟨?_, ?_, fun hc => absurd hc (by push_neg; exact ⟨hx, hy⟩)⟩
    · rw [UltimateEngine.getChecked, UltimateEngine.get, if_neg (by push_neg; exact ⟨hx, hy⟩),
        if_neg (by push_neg; exact ⟨hx, hy⟩)]
      simp only [List.getElem?_eq_getElem hidx]
      rw [List.getD_eq_getElem _ _ hidx]
      rfl
    · rw [UltimateEngine.setChecked, UltimateEngine.set, if_neg (by push_neg; exact ⟨hx, hy⟩),
        if_neg (by push_neg; exact ⟨hx, hy⟩)]
      simp only [List.getElem?_eq_getElem hidx]
      rw [List.getD_eq_getElem _ _ hidx]

/-- Witness for C7 on the concrete 5 × 5 engine, at the out-of-bounds
column 99. -/
theorem c7_accessors_never_fault_witness :
    WF ultB5 ∧
      (ultB5.getChecked 99 1 = some (ultB5.get 99 1) ∧
        ultB5.setChecked 99 1 = some (ultB5.set 99 1) ∧
        ((ultB5.actual_width ≤ 99 ∨ ultB5.actual_height ≤ 1) →
          ultB5.get 99 1 = false ∧ ultB5.set 99 1 = ultB5)) :=
  ⟨by decide, c7_accessors_never_fault ultB5 (by decide) 99 1⟩

/-! ## The parallel and sequential stepping paths (C9) -/

theorem div_ceil_peel {r cs : Nat} (hcs : 0 < cs) (hr : 0 < r) :
    div_ceil r cs = div_ceil (r - cs) cs + 1 := by
  unfold div_ceil
  rcases le_or_lt r cs with h | h
  · have h1 : r - cs = 0 := by omega
    rw [h1]
    have h2 : (0 + cs - 1) / cs = 0 := by
      rw [Nat.zero_add]
      exact Nat.div_eq_of_lt (by omega)
    have h3 : (r + cs - 1) / cs = 1 :=
      Nat.div_eq_of_lt_le (by omega) (by omega)
    rw [h2, h3]
  · have h1 : r + cs - 1 = (r - cs + cs - 1) + cs := by omega
    rw [h1, Nat.add_div_right _ hcs]

theorem div_ceil_mul_right (a b c : Nat) (hb : 0 < b) (hc : 0 < c) :
    div_ceil (a * c) (b * c) = div_ceil a b := by
  unfold div_ceil
  have h1 : a * c + b * c - 1 = (a + b) * c - 1 := by rw [Nat.add_mul]
  have h3 : (a + b) * c - 1 = (a + b - 1) * c + (c - 1) := by
    rw [Nat.sub_mul, Nat.one_mul]
    have hle : c ≤ (a + b) * c := Nat.le_mul_of_pos_left c (by omega)
    generalize (a + b) * c = A at hle ⊢
    omega
  have h2 : ((a + b) * c - 1) / c = a + b - 1 := by
    rw [h3, Nat.add_comm, Nat.add_mul_div_right _ _ hc, Nat.div_eq_of_lt (by omega),
      Nat.zero_add]
  rw [h1, Nat.mul_comm b c, ← Nat.div_div_eq_div_mul, h2]

theorem min_mul_div (a b c : Nat) (hc : 0 < c) : min (a * c) (b * c) / c = min a b := by
  rcases Nat.le_total a b with h | h
  · rw [Nat.min_eq_left (Nat.mul_le_mul_right c h), Nat.min_eq_left h,
      Nat.mul_div_cancel _ hc]
  · rw [Nat.min_eq_right (Nat.mul_le_mul_right c h), Nat.min_eq_right h,
      Nat.mul_div_cancel _ hc]

theorem foldl_flatMap {α β σ : Type} (l : List α) (f : α → List β) (F : σ → β → σ)
    (init : σ) :
    (l.flatMap f).foldl F init = l.foldl (fun acc x => (f x).foldl F acc) init := by
  induction l generalizing init with
  | nil => rfl
  | cons a t ih => rw [List.flatMap_cons, List.foldl_append, List.foldl_cons, ih]

theorem range_blocks (cs : Nat) (hcs : 0 < cs) (r : Nat) :
    (List.range (div_ceil r cs)).flatMap
      (fun i => (List.range (min cs (r - i * cs))).map (· + i * cs)) = List.range r := by
  induction r using Nat.strong_induction_on with
  | _ r ih =>
  rcases Nat.eq_zero_or_pos r with rfl | hr
  · have h0 : div_ceil 0 cs = 0 := by
      unfold div_ceil
      rw [Nat.zero_add]
      exact Nat.div_eq_of_lt (by omega)
    rw [h0]
    rfl
  · rw [div_ceil_peel hcs hr, List.range_succ_eq_map, List.flatMap_cons, List.flatMap_map]
    have hhead : (List.range (min cs (r - 0 * cs))).map (· + 0 * cs) = List.range (min cs r) := by
      simp
    have htail : ∀ i : Nat,
        (List.range (min cs (r - (i + 1) * cs))).map (· + (i + 1) * cs) =
          ((List.range (min cs (r - cs - i * cs))).map (· + i * cs)).map (· + cs) := by
      intro i
      rw [List.map_map]
      have h1 : r - (i + 1) * cs = r - cs - i * cs := by
        rw [Nat.succ_mul, Nat.sub_sub, Nat.add_comm (i * cs) cs]
      rw [h1]
      apply List.map_congr_left
      intro z _
      simp only [Function.comp]
      rw [Nat.succ_mul, ← Nat.add_assoc]
    have hsucc : ∀ i : Nat,
        (fun i => (List.range (min cs (r - i * cs))).map (· + i * cs)) i.succ =
          ((List.range (min cs (r - cs - i * cs))).map (· + i * cs)).map (· + cs) := by
      intro i
      exact htail i
    rw [hhead]
    have hflat :
        (List.range (div_ceil (r - cs) cs)).flatMap
            (fun i => (fun i => (List.range (min cs (r - i * cs))).map (· + i * cs)) i.succ) =
          ((List.range (div_ceil (r - cs) cs)).flatMap
            (fun i => (List.range (min cs (r - cs - i * cs))).map (· + i * cs))).map (· + cs) := by
      rw [List.map_flatMap]
      exact List.flatMap_congr (fun i _ => hsucc i)
    rw [hflat, ih (r - cs) (by omega)]
    rcases Nat.le_total r cs with h | h
    · rw [Nat.min_eq_right h, show r - cs = 0 by omega]
      simp
    · rw [Nat.min_eq_left h]
      have hmap : (List.range (r - cs)).map (· + cs) = List.range' cs (r - cs) := by
        rw [List.range'_eq_map_range]
        apply List.map_congr_left
        intro z _
        omega
      rw [hmap, List.range_eq_range', List.range_eq_range']
      have happ := List.range'_append 0 cs (r - cs) 1
      simp only [Nat.one_mul, Nat.zero_add] at happ
      rw [happ, show r - cs + cs = r by omega]

theorem parInterior_eq_stepInterior (field nf : List Nat)
    (height columns N bxs : Nat) (masks : List Nat) (cs : Nat)
    (hcs : 0 < cs) (hcols : 0 < columns) :
    parInterior field nf height columns N bxs masks cs =
      stepInterior field nf height columns N bxs masks := by
  rw [parInterior, stepInterior]
  have hL : columns * height - columns - columns = (height - 2) * columns := by
    rw [Nat.sub_mul, Nat.mul_comm height columns]
    have hle : 2 * columns = columns + columns := by ring
    generalize columns * height = A
    omega
  rw [hL]
  have hnb : div_ceil ((height - 2) * columns) (cs * columns) = div_ceil (height - 2) cs :=
    div_ceil_mul_right _ _ _ hcs hcols
  have hrows : ∀ i : Nat,
      min (cs * columns) ((height - 2) * columns - i * (cs * columns)) / columns =
        min cs (height - 2 - i * cs) := by
    intro i
    have h1 : (height - 2 - i * cs) * columns = (height - 2) * columns - i * (cs * columns) := by
      rw [Nat.sub_mul, Nat.mul_assoc]
    rw [← h1, min_mul_div _ _ _ hcols]
  rw [hnb]
  simp only [hrows]
  rw [← range_blocks cs hcs (height - 2), foldl_flatMap]
  simp only [List.foldl_map]

theorem foldl_length {α : Type} (l : List α) (F : List Nat → α → List Nat) :
    ∀ init : List Nat, (∀ acc a, a ∈ l → (F acc a).length = acc.length) →
      (l.foldl F init).length = init.length := by
  induction l with
  | nil => intro init _; rfl
  | cons a t ih =>
    intro init hF
    rw [List.foldl_cons, ih (F init a) (fun acc x hx => hF acc x (List.mem_cons_of_mem a hx))]
    exact hF init a (by simp)

theorem writeWords_length (nf : List Nat) (pos : Nat) (ws : List Nat) (n : Nat) :
    (writeWords nf pos ws n).length = nf.length := by
  rw [writeWords]
  exact foldl_length _ _ nf (fun acc a _ => List.length_set ..)

theorem stepRowChunks_length (field : List Nat) (columns N bxs : Nat)
    (masks : List Nat) (y : Nat) (nf : List Nat) :
    (stepRowChunks field columns N bxs masks y nf).length = nf.length := by
  rw [stepRowChunks]
  exact foldl_length _ _ nf (fun acc a _ => writeWords_length ..)

theorem stepInterior_length (field nf : List Nat) (height columns N bxs : Nat)
    (masks : List Nat) :
    (stepInterior field nf height columns N bxs masks).length = nf.length := by
  rw [stepInterior]
  exact foldl_length _ _ nf (fun acc a _ => stepRowChunks_length ..)

theorem WF_seqStepOnce {e : UltimateEngine} (hWF : WF e) : WF (seqStepOnce e) := by
  obtain ⟨hl, hh, hc, hb, hf, hnf, hm⟩ := hWF
  refine ⟨hl, hh, hc, hb, ?_, ?_, hm⟩
  · show (stepInterior e.field e.new_field e.height e.columns e.lanes
      e.boundary_x_start e.boundary_masks).length = e.columns * e.height
    rw [stepInterior_length]
    exact hnf
  · exact hf

theorem columns_ge_two {e : UltimateEngine} (hWF : WF e) : 2 ≤ e.columns := by
  obtain ⟨-, -, hc, -⟩ := hWF
  rw [hc]
  exact Nat.le_add_left 2 _

/-- Claim C9 as amended: for every structurally well-formed engine with at
least one interior row (`actual_height ≥ 1`), every worker count `t ≥ 1`
and every step count, the thread-pool path — interior rows partitioned
into blocks of `ceil(rows / t)` rows, each processed by the per-row
algorithm — produces exactly the sequential path's result.  (As stated the
claim also covers `actual_height = 0`, where the parallel path faults; see
the counterexample.) -/
theorem c9_parallel_matches_sequential (e : UltimateEngine) (threads n : Nat)
    (hWF : WF e) (ht : 1 ≤ threads) (hh : 1 ≤ e.actual_height) :
    parStepBatch threads n e = some (seqStepOnce^[n] e) := by
  induction n generalizing e with
  | zero => rfl
  | succ k ih =>
    have hrows : 0 < e.height - 2 := by
      obtain ⟨-, hhh, -⟩ := hWF
      omega
    have hcs : 0 < (e.height - 2 + threads - 1) / threads :=
      Nat.div_pos (by omega) (by omega)
    have hcols : 0 < e.columns := lt_of_lt_of_le (by norm_num) (columns_ge_two hWF)
    have hstep : parStepOnce threads e = some (seqStepOnce e) := by
      rw [parStepOnce, if_neg (Nat.mul_ne_zero (by omega) (by omega)), seqStepOnce,
        parInterior_eq_stepInterior _ _ _ _ _ _ _ _ hcs hcols]
    show (parStepOnce threads e).bind (parStepBatch threads k) = some (seqStepOnce^[k + 1] e)
    rw [hstep]
    show parStepBatch threads k (seqStepOnce e) = some (seqStepOnce^[k + 1] e)
    rw [Function.iterate_succ_apply]
    exact ih (seqStepOnce e) (WF_seqStepOnce hWF) hh

/-- Witness for the amended C9 on the concrete 5 × 5 blinker engine with 2
workers and one step. -/
theorem c9_parallel_matches_sequential_witness :
    WF ultB5 ∧ 1 ≤ 2 ∧ 1 ≤ ultB5.actual_height ∧
      parStepBatch 2 1 ultB5 = some (seqStepOnce^[1] ultB5) :=
  ⟨by decide, by decide, by decide,
    c9_parallel_matches_sequential ultB5 2 1 (by decide) (by decide) (by decide)⟩

/-- Counterexample to C9 as stated: on the zero-height engine `new 4 2 0`
the parallel path faults (`chunks_mut` is called with chunk size 0), so it
does not produce the sequential path's field. -/
theorem c9_counterexample :
    parStepOnce 1 (UltimateEngine.new 4 2 0) ≠
      some (seqStepOnce (UltimateEngine.new 4 2 0)) := by decide

/-! ## The border invariant (C4) -/

theorem getD_replicate_zero (n i : Nat) : (List.replicate n (0:Nat)).getD i 0 = 0 := by
  rcases Nat.lt_or_ge i n with h | h
  · rw [List.getD_eq_getElem _ _ (by simpa using h), List.getElem_replicate]
  · exact getD_oob (by simpa using h)

theorem foldl_getD_untouched {α : Type} (l : List α) (F : List Nat → α → List Nat)
    (idx : Nat) :
    ∀ init : List Nat, (∀ acc a, a ∈ l → (F acc a).getD idx 0 = acc.getD idx 0) →
      (l.foldl F init).getD idx 0 = init.getD idx 0 := by
  induction l with
  | nil => intro init _; rfl
  | cons a t ih =>
    intro init hF
    rw [List.foldl_cons, ih (F init a) (fun acc x hx => hF acc x (List.mem_cons_of_mem a hx))]
    exact hF init a (by simp)

theorem writeWords_getD_untouched (nf : List Nat) (pos : Nat) (ws : List Nat)
    (n idx : Nat) (h : idx < pos ∨ pos + n ≤ idx) :
    (writeWords nf pos ws n).getD idx 0 = nf.getD idx 0 := by
  induction n with
  | zero => rfl
  | succ m ih =>
    rw [writeWords, List.range_succ, List.foldl_append, List.foldl_cons, List.foldl_nil]
    show (List.set (writeWords nf pos ws m) (pos + m) (ws.getD m 0)).getD idx 0 = _
    rw [getD_set_ne _ _ _ _ (by omega)]
    exact ih (by omega)

theorem stepRowChunks_getD_untouched (field : List Nat) (columns N bxs : Nat)
    (masks : List Nat) (y : Nat) (nf : List Nat) (idx : Nat)
    (hout : ∀ x, x ∈ chunkStarts columns N →
      idx < y * columns + x ∨ y * columns + x + N ≤ idx) :
    (stepRowChunks field columns N bxs masks y nf).getD idx 0 = nf.getD idx 0 := by
  rw [stepRowChunks]
  exact foldl_getD_untouched _ _ _ nf
    (fun acc x hx => writeWords_getD_untouched _ _ _ _ _ (hout x hx))

theorem div_ceil_exact (k N : Nat) (hN : 0 < N) : div_ceil (k * N) N = k := by
  unfold div_ceil
  have h1 : k * N + N - 1 = (N - 1) + k * N := by
    generalize k * N = B
    omega
  rw [h1, Nat.add_mul_div_right _ _ hN, Nat.div_eq_of_lt (by omega), Nat.zero_add]

theorem chunkStarts_bounds {columns N x : Nat} (hN : 0 < N) (hdvd : N ∣ columns - 2)
    (hx : x ∈ chunkStarts columns N) : 1 ≤ x ∧ x + N ≤ columns - 1 := by
  rw [chunkStarts] at hx
  obtain ⟨j, hj, rfl⟩ := List.mem_map.mp hx
  rw [List.mem_range] at hj
  obtain ⟨k, hk⟩ := hdvd
  rw [hk, Nat.mul_comm N k, div_ceil_exact k N hN] at hj
  refine ⟨by omega, ?_⟩
  have h1 : 1 + j * N + N = 1 + (j + 1) * N := by
    rw [Nat.add_mul, Nat.one_mul, Nat.add_assoc]
  have h2 : (j + 1) * N ≤ k * N := Nat.mul_le_mul_right N (by omega)
  have h3 : 1 ≤ k := by omega
  have h4 : columns - 2 = k * N := by rw [hk, Nat.mul_comm]
  have h5 : N ≤ k * N := by
    calc N = 1 * N := (Nat.one_mul N).symm
    _ ≤ k * N := Nat.mul_le_mul_right N h3
  omega

theorem stepInterior_getD_border {field nf : List Nat} {height columns N bxs : Nat}
    {masks : List Nat} (hN : 0 < N) (hdvd : N ∣ columns - 2)
    {yb cb : Nat} (hcb : cb < columns)
    (hb : yb = 0 ∨ yb = height - 1 ∨ cb = 0 ∨ cb = columns - 1) :
    (stepInterior field nf height columns N bxs masks).getD (yb * columns + cb) 0 =
      nf.getD (yb * columns + cb) 0 := by
  rw [stepInterior]
  apply foldl_getD_untouched
  intro acc yl hyl
  rw [List.mem_range] at hyl
  apply stepRowChunks_getD_untouched
  intro x hx
  obtain ⟨hx1, hx2⟩ := chunkStarts_bounds hN hdvd hx
  rcases Nat.lt_or_ge (yb * columns + cb) ((yl + 1) * columns + x) with h | h
  · left; exact h
  · right
    by_contra hcon
    push_neg at hcon
    have hcols : 2 < columns := by omega
    set l := yb * columns + cb - ((yl + 1) * columns + x) with hl
    have hlN : l < N := by
      generalize hA : (yl + 1) * columns = A at *
      generalize hB : yb * columns = B at *
      omega
    have he : (yl + 1) * columns + (x + l) = yb * columns + cb := by
      generalize hA : (yl + 1) * columns = A at *
      generalize hB : yb * columns = B at *
      omega
    have hxl : x + l < columns := by omega
    obtain ⟨hy, hc⟩ := rowcol_inj hxl hcb he
    rcases hb with h0 | h0 | h0 | h0 <;> omega

theorem foldl_preserve {α σ : Type} (P : σ → Prop) (l : List α) (F : σ → α → σ) :
    ∀ init : σ, P init → (∀ acc a, a ∈ l → P acc → P (F acc a)) → P (l.foldl F init) := by
  induction l with
  | nil => intro init h _; exact h
  | cons a t ih =>
    intro init h hF
    rw [List.foldl_cons]
    exact ih (F init a) (hF init a (by simp) h)
      (fun acc x hx hp => hF acc x (List.mem_cons_of_mem a hx) hp)

/-- The combined invariant carried through C4's induction. -/
def EngineInv (e : UltimateEngine) : Prop :=
  WF e ∧ borderZero e.field e.height e.columns ∧
    borderZero e.new_field e.height e.columns

theorem lanes_dvd_columns_sub_two {e : UltimateEngine} (hWF : WF e) :
    e.lanes ∣ e.columns - 2 := by
  obtain ⟨-, -, hc, -⟩ := hWF
  exact ⟨div_ceil (div_ceil e.actual_width 64) e.lanes, by
    rw [hc, Nat.add_sub_cancel, Nat.mul_comm]⟩

theorem WF_set {e : UltimateEngine} (hWF : WF e) (x y : Nat) : WF (e.set x y) := by
  rw [UltimateEngine.set]
  by_cases hoob : e.actual_width ≤ x ∨ e.actual_height ≤ y
  · rw [if_pos hoob]; exact hWF
  · rw [if_neg hoob]
    obtain ⟨hl, hh, hc, hb, hf, hnf, hm⟩ := hWF
    exact ⟨hl, hh, hc, hb, by simpa [List.length_set] using hf, hnf, hm⟩

theorem set_interior_col {e : UltimateEngine} (hWF : WF e) {x : Nat}
    (hx : x < e.actual_width) : 1 ≤ x / 64 + 1 ∧ x / 64 + 1 ≤ e.columns - 2 := by
  obtain ⟨hl, hh, hc, hb, hf, hnf, hm⟩ := hWF
  have h1 : x < div_ceil e.actual_width 64 * 64 :=
    lt_of_lt_of_le hx (le_div_ceil_mul _ _ (by norm_num))
  have h2 : x / 64 < div_ceil e.actual_width 64 := by
    rw [Nat.div_lt_iff_lt_mul (by norm_num : (0:Nat) < 64)]
    exact h1
  have h3 : div_ceil e.actual_width 64 ≤
      div_ceil (div_ceil e.actual_width 64) e.lanes * e.lanes :=
    le_div_ceil_mul _ _ hl
  omega

theorem EngineInv_set {e : UltimateEngine} (hinv : EngineInv e) (x y : Nat) :
    EngineInv (e.set x y) := by
  obtain ⟨hWF, hbf, hbn⟩ := hinv
  refine ⟨WF_set hWF x y, ?_, ?_⟩
  · rw [UltimateEngine.set]
    by_cases hoob : e.actual_width ≤ x ∨ e.actual_height ≤ y
    · rw [if_pos hoob]; exact hbf
    · rw [if_neg hoob]
      push_neg at hoob
      obtain ⟨hx, hy⟩ := hoob
      intro yb cb hyb hcb hbb
      replace hyb : yb < e.height := hyb
      replace hcb : cb < e.columns := hcb
      replace hbb : yb = 0 ∨ yb = e.height - 1 ∨ cb = 0 ∨ cb = e.columns - 1 := hbb
      obtain ⟨hc1, hc2⟩ := set_interior_col hWF hx
      obtain ⟨hl, hh, hc, hb, hf, hnf, hm⟩ := hWF
      have hcols : 2 ≤ e.columns := by
        rw [hc]; exact Nat.le_add_left 2 _
      show (e.field.set ((y + 1) * e.columns + (x / 64 + 1)) _).getD (yb * e.columns + cb) 0 = 0
      rw [getD_set_ne]
      · exact hbf yb cb hyb hcb hbb
      · intro hcon
        have hxc : x / 64 + 1 < e.columns := by omega
        obtain ⟨hy1, hc1'⟩ := rowcol_inj hxc hcb hcon
        rcases hbb with h0 | h0 | h0 | h0 <;> omega
  · rw [UltimateEngine.set]
    by_cases hoob : e.actual_width ≤ x ∨ e.actual_height ≤ y
    · rw [if_pos hoob]; exact hbn
    · rw [if_neg hoob]; exact hbn

theorem WF_new (N W H : Nat) (hN : 0 < N) : WF (UltimateEngine.new N W H) := by
  refine ⟨hN, rfl, rfl, rfl, ?_, ?_, ?_⟩
  · simp [UltimateEngine.new]
  · simp [UltimateEngine.new]
  · simp [UltimateEngine.new]

theorem EngineInv_set_grid {e : UltimateEngine} (hWF : WF e) (g : StandardGrid) :
    EngineInv (e.set_grid g) := by
  rw [UltimateEngine.set_grid]
  apply foldl_preserve EngineInv
  · refine ⟨?_, ?_, ?_⟩
    · obtain ⟨hl, hh, hc, hb, hf, hnf, hm⟩ := hWF
      exact ⟨hl, hh, hc, hb, by simpa using hf, by simpa using hnf, hm⟩
    · intro yb cb _ _ _
      exact getD_replicate_zero _ _
    · intro yb cb _ _ _
      exact getD_replicate_zero _ _
  · intro acc row _ hp
    apply foldl_preserve EngineInv
    · exact hp
    · intro acc2 col _ hp2
      by_cases hg : g.get_cell row col = true
      · rw [if_pos hg]; exact EngineInv_set hp2 col row
      · rw [if_neg hg]; exact hp2

theorem EngineInv_seqStepOnce {e : UltimateEngine} (hinv : EngineInv e) :
    EngineInv (seqStepOnce e) := by
  obtain ⟨hWF, hbf, hbn⟩ := hinv
  refine ⟨WF_seqStepOnce hWF, ?_, ?_⟩
  · intro yb cb hyb hcb hbb
    replace hyb : yb < e.height := hyb
    replace hcb : cb < e.columns := hcb
    replace hbb : yb = 0 ∨ yb = e.height - 1 ∨ cb = 0 ∨ cb = e.columns - 1 := hbb
    have hl := hWF.1
    show (stepInterior e.field e.new_field e.height e.columns e.lanes
      e.boundary_x_start e.boundary_masks).getD (yb * e.columns + cb) 0 = 0
    rw [stepInterior_getD_border hl (lanes_dvd_columns_sub_two hWF) hcb hbb]
    exact hbn yb cb hyb hcb hbb
  · exact hbf

/-- Claim C4: the padding border of the packed field — first and last row,
first and last word-column — is all zero after construction and loading,
and stays all zero after every step, in both buffers across the swap
(stepping writes only interior rows and interior word-columns). -/
theorem c4_border_always_zero (N W H : Nat) (g : StandardGrid) (n : Nat) (hN : 0 < N) :
    borderZero (seqStepOnce^[n] ((UltimateEngine.new N W H).set_grid g)).field
        (seqStepOnce^[n] ((UltimateEngine.new N W H).set_grid g)).height
        (seqStepOnce^[n] ((UltimateEngine.new N W H).set_grid g)).columns ∧
      borderZero (seqStepOnce^[n] ((UltimateEngine.new N W H).set_grid g)).new_field
        (seqStepOnce^[n] ((UltimateEngine.new N W H).set_grid g)).height
        (seqStepOnce^[n] ((UltimateEngine.new N W H).set_grid g)).columns := by
  have hinv : EngineInv (seqStepOnce^[n] ((UltimateEngine.new N W H).set_grid g)) := by
    induction n with
    | zero => exact EngineInv_set_grid (WF_new N W H hN) g
    | succ k ih =>
      rw [Function.iterate_succ_apply']
      exact EngineInv_seqStepOnce ih
  exact ⟨hinv.2.1, hinv.2.2⟩

/-- Witness for C4: the 65 × 3 engine that exercises the unmasked
straddling column, after three steps. -/
theorem c4_border_always_zero_witness :
    0 < 4 ∧
      (borderZero (seqStepOnce^[3] ((UltimateEngine.new 4 65 3).set_grid gridW65)).field
          (seqStepOnce^[3] ((UltimateEngine.new 4 65 3).set_grid gridW65)).height
          (seqStepOnce^[3] ((UltimateEngine.new 4 65 3).set_grid gridW65)).columns ∧
        borderZero (seqStepOnce^[3] ((UltimateEngine.new 4 65 3).set_grid gridW65)).new_field
          (seqStepOnce^[3] ((UltimateEngine.new 4 65 3).set_grid gridW65)).height
          (seqStepOnce^[3] ((UltimateEngine.new 4 65 3).set_grid gridW65)).columns) :=
  ⟨by decide, c4_border_always_zero 4 65 3 gridW65 3 (by decide)⟩

/-! ## Engine equivalence fails at an unmasked straddling column (C2) -/

/-- Claim C2 fails on the code: with lane count 4 and width 65 (the same
mechanism as width 200), the straddling word-column is never masked
because the only chunk start (1) is below `boundary_x_start` (2).  A stray
bit born at logical `x = 65` feeds back into the grid: loaded from the
same three-cell column at `x = 64`, the two engines agree after step 1 but
diverge at step 2 — `get_cell 0 64` is `true` on the packed engine and
`false` on the scalar reference engine. -/
theorem c2_engines_diverge_at_step_two :
    ultW65.count_live_cells = naiW65.count_live_cells ∧
      (UltimateEngine.step^[1] ultW65).count_live_cells =
        (NaiveEngine.step^[1] naiW65).count_live_cells ∧
      (UltimateEngine.step^[2] ultW65).get_cell 0 64 = true ∧
      (NaiveEngine.step^[2] naiW65).get_cell 0 64 = false :=
  ⟨by decide, by decide, by decide, by decide⟩

/-! ## The boundary mask is skipped for a straddling column (C3) -/

/-- Claim C3 fails on the code: masking is guarded by the chunk START
(`x >= boundary_x_start`), not by the column itself.  For width 65 with
lane count 4 the single chunk starts at column 1 while `boundary_x_start`
is 2, so the straddling column 2 is never masked and one step writes a
live bit at logical `x = 65 ≥ width` (column 2, bit 62) — a bit its own
precomputed mask requires to be zero. -/
theorem c3_straddling_column_not_masked :
    chunkStarts ultW65.columns ultW65.lanes = [1] ∧
      ultW65.boundary_x_start = 2 ∧
      (ultW65.boundary_masks.getD 2 0).testBit 62 = false ∧
      ((seqStepOnce ultW65).field.getD (2 * ultW65.columns + 2) 0).testBit 62 = true :=
  ⟨by decide, by decide, by decide, by decide⟩

/-! ## `run_steps` truncates its step count to 32 bits (C5) -/

/-- Claim C5 fails on the code for `n = 2 ^ 32` (on a 64-bit target):
`run_steps` casts `steps as u32`, so `run_steps(2 ^ 32)` performs zero
steps and leaves the 1 × 1 engine's only cell alive, while `2 ^ 32`
sequential `step()` calls kill it at the first step. -/
theorem c5_run_steps_truncates_step_count :
    (ult1.run_steps (2 ^ 32)).count_live_cells = 1 ∧
      (UltimateEngine.step^[2 ^ 32] ult1).count_live_cells = 0 := by
  constructor
  · show (ult1.step_batch (2 ^ 32 % 2 ^ 32)).count_live_cells = 1
    rw [Nat.mod_self]
    decide
  · have hstep : UltimateEngine.step = seqStepOnce := by
      funext e
      show seqStepOnce^[1] e = seqStepOnce e
      rw [Function.iterate_one]
    rw [hstep]
    have h1 : seqStepOnce (seqStepOnce ult1) = UltimateEngine.new 4 1 1 := by decide
    have h2 : seqStepOnce (UltimateEngine.new 4 1 1) = UltimateEngine.new 4 1 1 := by decide
    have h3 : (2:Nat) ^ 32 = 2 ^ 32 - 2 + 1 + 1 := by norm_num
    rw [h3, Function.iterate_succ_apply, Function.iterate_succ_apply, h1,
      Function.iterate_fixed h2]
    decide

/-! ## Zero-sized engines: construction is valid but stepping faults (C8) -/

/-- Claim C8 fails on the code for `height = 0`: construction succeeds
with zero live cells and `get` is `false` everywhere, and a zero-width
engine even steps correctly — but on the thread-pool path a zero-HEIGHT
engine makes `chunk_size = 0`, so `chunks_mut(0)` faults instead of
leaving the engine empty. -/
theorem c8_zero_height_step_faults :
    (UltimateEngine.new 4 1 0).count_live_cells = 0 ∧
      (∀ x y, (UltimateEngine.new 4 1 0).get x y = false) ∧
      parStepOnce 2 (UltimateEngine.new 4 0 1) =
        some (seqStepOnce (UltimateEngine.new 4 0 1)) ∧
      (seqStepOnce (UltimateEngine.new 4 0 1)).count_live_cells = 0 ∧
      parStepOnce 2 (UltimateEngine.new 4 1 0) = none := by
  refine ⟨by decide, ?_, by decide, by decide, by decide⟩
  intro x y
  have hg : (UltimateEngine.new 4 1 0).actual_width ≤ x ∨
      (UltimateEngine.new 4 1 0).actual_height ≤ y := Or.inr (Nat.zero_le y)
  rw [UltimateEngine.get, if_pos hg]

/-! ## The hot path faults on a zero-height engine (C10) -/

/-- Claim C10 fails on the code: `step()` is not fault-free for every
engine.  On a zero-height engine the thread-pool path computes
`chunk_size = ceil(0 / threads) = 0` and `chunks_mut(chunk_size * columns)`
faults before any index is used; with at least one interior row the same
path succeeds (and equals the sequential path). -/
theorem c10_zero_height_hot_path_faults :
    (UltimateEngine.new 4 3 0).height - 2 = 0 ∧
      parStepOnce 2 (UltimateEngine.new 4 3 0) = none ∧
      parStepOnce 2 (UltimateEngine.new 4 3 1) =
        some (seqStepOnce (UltimateEngine.new 4 3 1)) :=
  ⟨by decide, by decide, by decide⟩

end GameOfLife
